import Mathlib

/-!
Shallow embedding of `lib/icingadb/redisconnection.cpp` (class `RedisConnection`):
the shared queue state (`m_Queues`), the write path (`WriteItem`, `WriteLoop`),
the read path (`ReadLoop`), the connect loop's exception structure (`Connect`)
and the query redaction helper (`LogQuery`).

Modelling conventions:
* A Redis query is a list of byte-string arguments (`List Nat` of bytes).
* A decoded reply is abstract (`Reply := Nat`): RESP decoding is an external
  collaborator (`ReadOne`), out of scope; only the routing of replies matters.
* Network I/O is an oracle indexed by the number of I/O calls made so far:
  `Nat → SendOutcome` for successive `WriteOne` calls and `Nat → ReadOutcome`
  for successive `ReadOne` calls.  Each call consumes one position.
* C++ exceptions are reified: `boost::coroutines::detail::forced_unwind` is the
  distinguished `unwind` outcome, every other exception is `err e` with `e` an
  abstract identifier.
* `std::promise` sinks are identified by numbers; resolving a sink is an
  emitted `Event`.  A second resolution of the same `std::promise` throws
  `std::future_error`; the model tracks this with the `thrown` outcome.
-/

abbrev Arg := List Nat
abbrev Query := List Arg
abbrev Reply := Nat

/-- `RedisConnection::ResponseAction` (redisconnection.hpp): what to do with
the next `Amount` replies on the wire. -/
inductive ResponseAction where
  | Ignore
  | Deliver
  | DeliverBulk
deriving DecidableEq

/-- `RedisConnection::FutureResponseAction`: one ledger record. -/
structure FutureResponseAction where
  Amount : Nat
  Action : ResponseAction
deriving DecidableEq

/-- The parts of `RedisConnection::m_Queues` shared between `WriteItem` and
`ReadLoop`: the response-action ledger and the two promise FIFOs (head of the
list = front of the FIFO).  Promises are identified by numbers. -/
structure Queues where
  FutureResponseActions : List FutureResponseAction
  ReplyPromises : List Nat
  RepliesPromises : List Nat
deriving DecidableEq

/-- Outcome of one `WriteOne` call (or of one connect attempt):
success, a non-cancellation exception `err e`, or the coroutine runtime's
`forced_unwind` cancellation exception. -/
inductive SendOutcome where
  | ok
  | err (e : Nat)
  | unwind
deriving DecidableEq

/-- Outcome of one `ReadOne` call: a decoded reply, a non-cancellation
exception, or `forced_unwind`. -/
inductive ReadOutcome where
  | ok (r : Reply)
  | err (e : Nat)
  | unwind
deriving DecidableEq

/-- Observable effects of a step: resolving a promise with a value, a list of
values or an exception, and critical-level logging. -/
inductive Event where
  | sinkValue (sink : Nat) (r : Reply)
  | sinkValues (sink : Nat) (rs : List Reply)
  | sinkFailure (sink : Nat) (e : Nat)
  | logCritical (e : Nat)
deriving DecidableEq

/-- `RedisConnection::WriteQueueItem`: four optional payloads, one per
submission operation (the enqueuing sites set exactly one, but the struct
itself allows any combination and `WriteItem` checks all four in order).
Result-bearing payloads carry the identifier of the caller's promise. -/
structure WriteQueueItem where
  FireAndForgetQuery : Option Query
  FireAndForgetQueries : Option (List Query)
  GetResultOfQuery : Option (Query × Nat)
  GetResultsOfQueries : Option (List Query × Nat)
deriving DecidableEq

/-- `m_Queues.FutureResponseActions` coalescing append, used by the
`FireAndForgetQuery`/`FireAndForgetQueries` branches (with `a = Ignore`) and
the `GetResultOfQuery` branch (with `a = Deliver`) of `WriteItem`
(redisconnection.cpp:391-395, 425-429, 449-453):
`if (FRA.empty() || FRA.back().Action != a) emplace({k, a}); else back().Amount += k;`. -/
def ledgerCoalesce : List FutureResponseAction → Nat → ResponseAction → List FutureResponseAction
  | [], k, a => [⟨k, a⟩]
  | [x], k, a => if x.Action = a then [⟨x.Amount + k, a⟩] else [x, ⟨k, a⟩]
  | x :: y :: l, k, a => x :: ledgerCoalesce (y :: l) k a

/-- The `GetResultsOfQueries` branch of `WriteItem` always emplaces a fresh
record (redisconnection.cpp:474), never coalescing. -/
def ledgerPushBulk (l : List FutureResponseAction) (k : Nat) : List FutureResponseAction :=
  l ++ [⟨k, .DeliverBulk⟩]

/-- How processing one `WriteQueueItem` payload ended: `completed` (fell
through to the next `if`), `returned` (a non-cancellation exception was
caught and `WriteItem` executed `return`), `unwound` (`forced_unwind` was
rethrown). -/
inductive WOutcome where
  | completed
  | returned
  | unwound
deriving DecidableEq

/-- Result of (part of) a `WriteItem` call: the updated shared queues, the
position of the send oracle after the `WriteOne` calls made, the queries
actually written to the wire in order, the emitted events, and how the
processing ended. -/
structure WriteRes where
  queues : Queues
  pos : Nat
  sent : List Query
  events : List Event
  outcome : WOutcome
deriving DecidableEq

/-- Status of a loop of `WriteOne` calls over a list of queries. -/
inductive SendStatus where
  | ok
  | err (e : Nat)
  | unwind
deriving DecidableEq

/-- Result of sending a list of queries in order. -/
structure SendAllRes where
  pos : Nat
  sent : List Query
  status : SendStatus
deriving DecidableEq

/-- `for (auto& query : item) WriteOne(query, yc);`: send queries in order
until the first exception; the failing call still consumes an oracle
position, `sent` collects the successfully written prefix. -/
def sendAll (w : Nat → SendOutcome) : Nat → List Query → SendAllRes
  | pos, [] => ⟨pos, [], .ok⟩
  | pos, q :: qs =>
    match w pos with
    | .ok =>
      let r := sendAll w (pos + 1) qs
      ⟨r.pos, q :: r.sent, r.status⟩
    | .err e => ⟨pos + 1, [], .err e⟩
    | .unwind => ⟨pos + 1, [], .unwind⟩

/-- `WriteItem`, `if (next.FireAndForgetQuery)` branch
(redisconnection.cpp:370-398): send the query; on `forced_unwind` rethrow;
on any other exception log critically and return; on success coalesce an
`Ignore` unit into the ledger. -/
def fireOneStep (w : Nat → SendOutcome) (st : Queues) (pos : Nat) (q : Query) : WriteRes :=
  match w pos with
  | .ok =>
    ⟨{ st with FutureResponseActions := ledgerCoalesce st.FutureResponseActions 1 .Ignore },
      pos + 1, [q], [], .completed⟩
  | .err e => ⟨st, pos + 1, [], [.logCritical e], .returned⟩
  | .unwind => ⟨st, pos + 1, [], [], .unwound⟩

/-- `WriteItem`, `if (next.FireAndForgetQueries)` branch
(redisconnection.cpp:400-432): send all queries; on `forced_unwind` rethrow;
on any other exception log critically and return; on success coalesce
`item.size()` `Ignore` units into the ledger. -/
def fireManyStep (w : Nat → SendOutcome) (st : Queues) (pos : Nat) (qs : List Query) : WriteRes :=
  let r := sendAll w pos qs
  match r.status with
  | .ok =>
    ⟨{ st with FutureResponseActions := ledgerCoalesce st.FutureResponseActions qs.length .Ignore },
      r.pos, r.sent, [], .completed⟩
  | .err e => ⟨st, r.pos, r.sent, [.logCritical e], .returned⟩
  | .unwind => ⟨st, r.pos, r.sent, [], .unwound⟩

/-- `WriteItem`, `if (next.GetResultOfQuery)` branch
(redisconnection.cpp:434-456): send the query; on `forced_unwind` rethrow;
on any other exception fail the caller's promise and return; on success
enqueue the promise into `ReplyPromises` and coalesce a `Deliver` unit. -/
def awaitOneStep (w : Nat → SendOutcome) (st : Queues) (pos : Nat) (q : Query) (sink : Nat) : WriteRes :=
  match w pos with
  | .ok =>
    ⟨{ st with ReplyPromises := st.ReplyPromises ++ [sink],
               FutureResponseActions := ledgerCoalesce st.FutureResponseActions 1 .Deliver },
      pos + 1, [q], [], .completed⟩
  | .err e => ⟨st, pos + 1, [], [.sinkFailure sink e], .returned⟩
  | .unwind => ⟨st, pos + 1, [], [], .unwound⟩

/-- `WriteItem`, `if (next.GetResultsOfQueries)` branch
(redisconnection.cpp:458-477): send all queries; on `forced_unwind` rethrow;
on any other exception fail the caller's promise and return; on success
enqueue the promise into `RepliesPromises` and emplace a fresh
`DeliverBulk` record of `Amount = item.first.size()`. -/
def awaitManyStep (w : Nat → SendOutcome) (st : Queues) (pos : Nat) (qs : List Query) (sink : Nat) : WriteRes :=
  let r := sendAll w pos qs
  match r.status with
  | .ok =>
    ⟨{ st with RepliesPromises := st.RepliesPromises ++ [sink],
               FutureResponseActions := ledgerPushBulk st.FutureResponseActions qs.length },
      r.pos, r.sent, [], .completed⟩
  | .err e => ⟨st, r.pos, r.sent, [.sinkFailure sink e], .returned⟩
  | .unwind => ⟨st, r.pos, r.sent, [], .unwound⟩

/-- Sequencing of `WriteItem`'s four `if` blocks: the next block runs only if
the previous one fell through (the caught-exception paths `return` from the
whole function, `forced_unwind` propagates). -/
def seqSlot (r : WriteRes) (f : Queues → Nat → WriteRes) : WriteRes :=
  match r.outcome with
  | .completed =>
    let r2 := f r.queues r.pos
    ⟨r2.queues, r2.pos, r.sent ++ r2.sent, r.events ++ r2.events, r2.outcome⟩
  | _ => r

/-- `RedisConnection::WriteItem` (redisconnection.cpp:368-478): process the
four optional payloads in source order. -/
def writeItem (w : Nat → SendOutcome) (st : Queues) (pos : Nat) (it : WriteQueueItem) : WriteRes :=
  let r1 : WriteRes :=
    match it.FireAndForgetQuery with
    | none => ⟨st, pos, [], [], .completed⟩
    | some q => fireOneStep w st pos q
  let r2 :=
    match it.FireAndForgetQueries with
    | none => r1
    | some qs => seqSlot r1 (fun s p => fireManyStep w s p qs)
  let r3 :=
    match it.GetResultOfQuery with
    | none => r2
    | some qk => seqSlot r2 (fun s p => awaitOneStep w s p qk.1 qk.2)
  match it.GetResultsOfQueries with
  | none => r3
  | some qsk => seqSlot r3 (fun s p => awaitManyStep w s p qsk.1 qsk.2)

/-! ## Read side: `RedisConnection::ReadLoop` -/

/-- How processing one ledger entry ended: `ok` (the `while` loop continues
with the next entry), `unwind` (`forced_unwind` rethrown out of `ReadLoop`),
`thrown` (`std::future_error` raised by resolving an already-satisfied
`std::promise`, propagating out of `ReadLoop` uncaught), `ub` (`front()` on
an empty `std::queue`, undefined behaviour — unreachable from states
satisfying the ledger/FIFO invariant). -/
inductive ROutcome where
  | ok
  | unwind
  | thrown
  | ub
deriving DecidableEq

/-- Result of the `Ignore` branch's read loop. -/
structure IgnoreRes where
  pos : Nat
  events : List Event
  unwound : Bool
deriving DecidableEq

/-- `case ResponseAction::Ignore` (redisconnection.cpp:267-286): the `try`
wraps the whole `for`, so the first non-cancellation exception logs
critically and abandons the remaining reads of this entry (`continue` of the
outer `while`); `forced_unwind` is rethrown. -/
def readIgnore (w : Nat → ReadOutcome) : Nat → Nat → IgnoreRes
  | pos, 0 => ⟨pos, [], false⟩
  | pos, n + 1 =>
    match w pos with
    | .ok _ => readIgnore w (pos + 1) n
    | .err e => ⟨pos + 1, [.logCritical e], false⟩
    | .unwind => ⟨pos + 1, [], true⟩

/-- Result of the `Deliver` branch's read loop. -/
structure DeliverRes where
  pos : Nat
  proms : List Nat
  events : List Event
  outcome : ROutcome
deriving DecidableEq

/-- `case ResponseAction::Deliver` (redisconnection.cpp:287-307): `Amount`
times, pop one promise from `ReplyPromises`, read one reply, fulfill the
promise with it; a non-cancellation exception fails that promise and the
`for` continues with the next one; `forced_unwind` is rethrown (after the
promise was already popped). -/
def readDeliver (w : Nat → ReadOutcome) : Nat → Nat → List Nat → DeliverRes
  | pos, 0, proms => ⟨pos, proms, [], .ok⟩
  | pos, _ + 1, [] => ⟨pos, [], [], .ub⟩
  | pos, n + 1, p :: ps =>
    match w pos with
    | .ok v =>
      let r := readDeliver w (pos + 1) n ps
      ⟨r.pos, r.proms, .sinkValue p v :: r.events, r.outcome⟩
    | .err e =>
      let r := readDeliver w (pos + 1) n ps
      ⟨r.pos, r.proms, .sinkFailure p e :: r.events, r.outcome⟩
    | .unwind => ⟨pos + 1, ps, [], .unwind⟩

/-- Result of the `DeliverBulk` branch's read loop. -/
structure BulkRes where
  pos : Nat
  events : List Event
  outcome : ROutcome
deriving DecidableEq

/-- `case ResponseAction::DeliverBulk`, the inner `for` plus the final
`promise.set_value` (redisconnection.cpp:313-328).  `res` records whether
`promise.set_exception` has already been called.  A first non-cancellation
read exception fails the promise and the `for` continues; a second
`set_exception`, and likewise the unconditional `set_value` after the loop
when the promise is already satisfied, throw `std::future_error`
(`thrown`).  `forced_unwind` is rethrown. -/
def readBulkLoop (w : Nat → ReadOutcome) (sink : Nat) : Nat → Nat → List Reply → Option Nat → BulkRes
  | pos, 0, acc, none => ⟨pos, [.sinkValues sink acc], .ok⟩
  | pos, 0, _, some _ => ⟨pos, [], .thrown⟩
  | pos, n + 1, acc, res =>
    match w pos with
    | .ok v => readBulkLoop w sink (pos + 1) n (acc ++ [v]) res
    | .err e =>
      match res with
      | none =>
        let r := readBulkLoop w sink (pos + 1) n acc (some e)
        ⟨r.pos, .sinkFailure sink e :: r.events, r.outcome⟩
      | some _ => ⟨pos + 1, [], .thrown⟩
    | .unwind => ⟨pos + 1, [], .unwind⟩

/-- Result of processing one ledger entry in `ReadLoop`. -/
structure ReadRes where
  queues : Queues
  pos : Nat
  events : List Event
  outcome : ROutcome
deriving DecidableEq

/-- One iteration of `ReadLoop`'s `while (!m_Queues.FutureResponseActions.empty())`
(redisconnection.cpp:262-331): pop the front ledger entry and dispatch on its
`Action`.  With an empty ledger the `while` exits without touching anything. -/
def readLoopStep (w : Nat → ReadOutcome) (st : Queues) (pos : Nat) : ReadRes :=
  match st.FutureResponseActions with
  | [] => ⟨st, pos, [], .ok⟩
  | fra :: rest =>
    match fra.Action with
    | .Ignore =>
      let r := readIgnore w pos fra.Amount
      ⟨⟨rest, st.ReplyPromises, st.RepliesPromises⟩, r.pos, r.events,
        if r.unwound then .unwind else .ok⟩
    | .Deliver =>
      let r := readDeliver w pos fra.Amount st.ReplyPromises
      ⟨⟨rest, r.proms, st.RepliesPromises⟩, r.pos, r.events, r.outcome⟩
    | .DeliverBulk =>
      match st.RepliesPromises with
      | [] => ⟨⟨rest, st.ReplyPromises, []⟩, pos, [], .ub⟩
      | sink :: ps =>
        let r := readBulkLoop w sink pos fra.Amount [] none
        ⟨⟨rest, st.ReplyPromises, ps⟩, r.pos, r.events, r.outcome⟩

/-- The replies produced by `n` consecutive `ReadOne` calls starting at oracle
position `pos` (positions whose outcome is not a decoded reply contribute `0`;
only used under all-reads-succeed hypotheses). -/
def replyOf : ReadOutcome → Reply
  | .ok v => v
  | _ => 0

/-- The contiguous run of replies at positions `pos, pos+1, …, pos+n-1`. -/
def readVals (w : Nat → ReadOutcome) : Nat → Nat → List Reply
  | _, 0 => []
  | pos, n + 1 => replyOf (w pos) :: readVals w (pos + 1) n

/-! ## Write loop scan: `RedisConnection::WriteLoop` -/

/-- The per-priority write queues, as iterated by
`for (auto& queue : m_Queues.Writes)`: a `std::map<QueryPriority, queue>`
visits its entries in ascending key order (priority `0` = highest), so the
model is an association list with strictly increasing keys. -/
abbrev WriteQueues := List (Nat × List WriteQueueItem)

/-- One scan of `WriteLoop`'s labelled loop (redisconnection.cpp:345-357):
walk the queues in ascending priority order, skip a queue that is suppressed
or empty, and pop the front item of the first eligible queue.  After
`WriteItem` the `goto WriteFirstOfHighestPrio` restarts exactly this scan on
the updated state, so every transmitted item is chosen by a fresh
`selectNext` from the full map. -/
def selectNext : WriteQueues → List Nat → Option (Nat × WriteQueueItem × WriteQueues)
  | [], _ => none
  | (prio, q) :: rest, supp =>
    if supp.contains prio then
      (selectNext rest supp).map fun r => (r.1, r.2.1, (prio, q) :: r.2.2)
    else
      match q with
      | [] => (selectNext rest supp).map fun r => (r.1, r.2.1, (prio, q) :: r.2.2)
      | it :: q' => some (prio, it, (prio, q') :: rest)

/-! ## Connect loop: `RedisConnection::Connect` exception structure -/

/-- How one iteration of `Connect`'s retry loop ends. -/
inductive ConnectOutcome where
  | connected
  | retry
  | unwound
deriving DecidableEq

/-- One iteration of `Connect`'s `for (;;)` (redisconnection.cpp:214-250):
a successful attempt marks the connection up and breaks; `forced_unwind` is
rethrown uncaught and unlogged; any other exception is logged critically and
the loop retries after the 5-second timer. -/
def connectStep (attempt : SendOutcome) : ConnectOutcome × List Event :=
  match attempt with
  | .ok => (.connected, [])
  | .err e => (.retry, [.logCritical e])
  | .unwind => (.unwound, [])

/-! ## `LogQuery` (redisconnection.cpp:63-80) -/

/-- One token appended to the log message by `LogQuery`: a quoted argument
(possibly truncated) or the overflow marker `" ..."`. -/
inductive LogTok where
  | argTok (bytes : List Nat)
  | ellipsisTok
deriving DecidableEq

/-- The three bytes of `"..."`. -/
def ellipsisBytes : List Nat := [46, 46, 46]

/-- The body of `LogQuery`'s loop, with `i` the C++ counter before `++i`:
on the argument that makes `++i == 8`, append `" ..."` and break; otherwise
append the argument, truncated to its first 61 bytes plus `"..."` when its
length exceeds 64. -/
def logQueryAux : Nat → List Arg → List LogTok
  | _, [] => []
  | i, arg :: rest =>
    if i + 1 = 8 then [.ellipsisTok]
    else
      (if 64 < arg.length then LogTok.argTok (arg.take 61 ++ ellipsisBytes)
       else LogTok.argTok arg) :: logQueryAux (i + 1) rest

/-- `LogQuery(query, msg)`: the sequence of tokens appended to the message.
All four submission operations (`FireAndForgetQuery`, `FireAndForgetQueries`,
`GetResultOfQuery`, `GetResultsOfQueries`) call this once per query. -/
def logQuery (q : List Arg) : List LogTok := logQueryAux 0 q

/-! ## Derived ledger quantities and the C1 invariant -/

/-- Total number of `Deliver` units in the ledger (sum of `Amount` over
records with `Action = Deliver`). -/
def deliverUnits : List FutureResponseAction → Nat
  | [] => 0
  | x :: l => (if x.Action = .Deliver then x.Amount else 0) + deliverUnits l

/-- Number of ledger records with `Action = DeliverBulk`. -/
def bulkCount : List FutureResponseAction → Nat
  | [] => 0
  | x :: l => (if x.Action = .DeliverBulk then 1 else 0) + bulkCount l

/-- The ledger/FIFO lockstep invariant: `Deliver` units match outstanding
single-reply promises, `DeliverBulk` records match outstanding list
promises. -/
def ledgerInv (st : Queues) : Prop :=
  deliverUnits st.FutureResponseActions = st.ReplyPromises.length ∧
  bulkCount st.FutureResponseActions = st.RepliesPromises.length

instance (st : Queues) : Decidable (ledgerInv st) := by
  unfold ledgerInv; infer_instance

/-- No two adjacent ledger entries share the `Ignore` action, nor the
`Deliver` action. -/
def noAdjDup : List FutureResponseAction → Bool
  | [] => true
  | [_] => true
  | a :: b :: l =>
    (!(a.Action == .Ignore && b.Action == .Ignore) &&
     !(a.Action == .Deliver && b.Action == .Deliver)) && noAdjDup (b :: l)

/-- The ledger operations the program performs: the three append forms used
by `WriteItem` and the front-pop done by `ReadLoop`. -/
inductive LedgerOp where
  | pushIgnore (k : Nat)
  | pushDeliver (k : Nat)
  | pushBulk (k : Nat)
  | popFront
deriving DecidableEq

/-- Apply one ledger operation. -/
def applyLedgerOp (l : List FutureResponseAction) : LedgerOp → List FutureResponseAction
  | .pushIgnore k => ledgerCoalesce l k .Ignore
  | .pushDeliver k => ledgerCoalesce l k .Deliver
  | .pushBulk k => ledgerPushBulk l k
  | .popFront => l.tail

/-- Run a sequence of ledger operations from the empty ledger. -/
def applyLedgerOps (ops : List LedgerOp) : List FutureResponseAction :=
  ops.foldl applyLedgerOp []

/-! ## Ledger arithmetic lemmas -/

theorem deliverUnits_coalesce_ignore (l : List FutureResponseAction) (k : Nat) :
    deliverUnits (ledgerCoalesce l k .Ignore) = deliverUnits l := by
  induction l with
  | nil => simp [ledgerCoalesce, deliverUnits]
  | cons x l ih =>
    cases l with
    | nil =>
      by_cases h : x.Action = ResponseAction.Ignore <;>
        simp [ledgerCoalesce, deliverUnits, h]
    | cons y m => simp [ledgerCoalesce, deliverUnits, ih]

theorem deliverUnits_coalesce_deliver (l : List FutureResponseAction) (k : Nat) :
    deliverUnits (ledgerCoalesce l k .Deliver) = deliverUnits l + k := by
  induction l with
  | nil => simp [ledgerCoalesce, deliverUnits]
  | cons x l ih =>
    cases l with
    | nil =>
      by_cases h : x.Action = ResponseAction.Deliver <;>
        simp [ledgerCoalesce, deliverUnits, h]
    | cons y m => simp [ledgerCoalesce, deliverUnits, ih]; omega

theorem bulkCount_coalesce_ignore (l : List FutureResponseAction) (k : Nat) :
    bulkCount (ledgerCoalesce l k .Ignore) = bulkCount l := by
  induction l with
  | nil => simp [ledgerCoalesce, bulkCount]
  | cons x l ih =>
    cases l with
    | nil =>
      by_cases h : x.Action = ResponseAction.Ignore <;>
        simp [ledgerCoalesce, bulkCount, h]
    | cons y m => simp [ledgerCoalesce, bulkCount, ih]

theorem bulkCount_coalesce_deliver (l : List FutureResponseAction) (k : Nat) :
    bulkCount (ledgerCoalesce l k .Deliver) = bulkCount l := by
  induction l with
  | nil => simp [ledgerCoalesce, bulkCount]
  | cons x l ih =>
    cases l with
    | nil =>
      by_cases h : x.Action = ResponseAction.Deliver <;>
        simp [ledgerCoalesce, bulkCount, h]
    | cons y m => simp [ledgerCoalesce, bulkCount, ih]

theorem deliverUnits_pushBulk (l : List FutureResponseAction) (k : Nat) :
    deliverUnits (ledgerPushBulk l k) = deliverUnits l := by
  induction l with
  | nil => simp [ledgerPushBulk, deliverUnits]
  | cons x l ih => simpa [ledgerPushBulk, deliverUnits] using ih

theorem bulkCount_pushBulk (l : List FutureResponseAction) (k : Nat) :
    bulkCount (ledgerPushBulk l k) = bulkCount l + 1 := by
  induction l with
  | nil => simp [ledgerPushBulk, bulkCount]
  | cons x l ih => simp [ledgerPushBulk, bulkCount] at ih ⊢; omega

/-- Coalescing keeps the head's action: only the tail record is ever merged. -/
theorem ledgerCoalesce_head_action (y : FutureResponseAction)
    (m : List FutureResponseAction) (k : Nat) (a : ResponseAction) :
    ∃ amt t, ledgerCoalesce (y :: m) k a = FutureResponseAction.mk amt y.Action :: t := by
  cases m with
  | nil =>
    by_cases h : y.Action = a
    · exact ⟨y.Amount + k, [], by simp [ledgerCoalesce, h]⟩
    · exact ⟨y.Amount, [⟨k, a⟩], by simp [ledgerCoalesce, h]⟩
  | cons z m' => exact ⟨y.Amount, ledgerCoalesce (z :: m') k a, by simp [ledgerCoalesce]⟩

theorem noAdjDup_cons (a : FutureResponseAction) (l : List FutureResponseAction)
    (h : noAdjDup (a :: l) = true) : noAdjDup l = true := by
  cases l with
  | nil => simp [noAdjDup]
  | cons b m => simp [noAdjDup] at h ⊢; exact h.2

theorem noAdjDup_tail (l : List FutureResponseAction) (h : noAdjDup l = true) :
    noAdjDup l.tail = true := by
  cases l with
  | nil => simpa using h
  | cons a m => exact noAdjDup_cons a m h

theorem noAdjDup_coalesce (l : List FutureResponseAction) (k : Nat) (a : ResponseAction)
    (h : noAdjDup l = true) : noAdjDup (ledgerCoalesce l k a) = true := by
  induction l with
  | nil => cases a <;> simp [ledgerCoalesce, noAdjDup]
  | cons x l ih =>
    cases l with
    | nil =>
      by_cases hxa : x.Action = a
      · simp [ledgerCoalesce, hxa, noAdjDup]
      · cases hx : x.Action <;> cases a <;> simp_all [ledgerCoalesce, noAdjDup]
    | cons y m =>
      obtain ⟨amt, t, heq⟩ := ledgerCoalesce_head_action y m k a
      have h' := noAdjDup_cons x (y :: m) h
      have hadj : noAdjDup (x :: y :: m) = true := h
      simp only [noAdjDup, Bool.and_eq_true] at hadj
      have := ih h'
      rw [heq] at this
      simp only [ledgerCoalesce, heq, noAdjDup, Bool.and_eq_true]
      exact ⟨hadj.1, this⟩

theorem noAdjDup_pushBulk (l : List FutureResponseAction) (k : Nat)
    (h : noAdjDup l = true) : noAdjDup (ledgerPushBulk l k) = true := by
  induction l with
  | nil => simp [ledgerPushBulk, noAdjDup]
  | cons x l ih =>
    cases l with
    | nil => simp [ledgerPushBulk, noAdjDup]
    | cons y m =>
      have h' := noAdjDup_cons x (y :: m) h
      simp only [noAdjDup, Bool.and_eq_true] at h
      have := ih h'
      simp only [ledgerPushBulk, List.cons_append] at this ⊢
      simp only [noAdjDup, Bool.and_eq_true]
      exact ⟨h.1, this⟩

/-! ## Preservation of queue-state properties through `WriteItem` -/

/-- Any property of the shared queues is preserved by `seqSlot` if the
previous block preserved it and the next block does. -/
theorem seqSlot_pres (P : Queues → Prop) (r : WriteRes) (f : Queues → Nat → WriteRes)
    (hr : P r.queues) (hf : ∀ s p, P s → P (f s p).queues) :
    P (seqSlot r f).queues := by
  obtain ⟨qs, pos, sent, ev, oc⟩ := r
  cases oc with
  | completed => exact hf _ _ hr
  | returned => exact hr
  | unwound => exact hr

/-- Queue-state preservation through all four branches of `WriteItem`. -/
theorem writeItem_queues_pres (P : Queues → Prop)
    (h1 : ∀ w s p q, P s → P (fireOneStep w s p q).queues)
    (h2 : ∀ w s p qs, P s → P (fireManyStep w s p qs).queues)
    (h3 : ∀ w s p q k, P s → P (awaitOneStep w s p q k).queues)
    (h4 : ∀ w s p qs k, P s → P (awaitManyStep w s p qs k).queues)
    (w : Nat → SendOutcome) (st : Queues) (pos : Nat) (it : WriteQueueItem)
    (hst : P st) : P (writeItem w st pos it).queues := by
  obtain ⟨o1, o2, o3, o4⟩ := it
  cases o1 <;> cases o2 <;> cases o3 <;> cases o4 <;>
    simp only [writeItem] <;>
    (repeat'
      first
        | exact hst
        | exact h1 _ _ _ _ hst
        | apply seqSlot_pres
        | (intro s p hs;
           first
             | exact h2 _ _ _ _ hs
             | exact h3 _ _ _ _ _ hs
             | exact h4 _ _ _ _ _ hs))

theorem ledgerInv_fireOneStep (w : Nat → SendOutcome) (s : Queues) (p : Nat) (q : Query)
    (hs : ledgerInv s) : ledgerInv (fireOneStep w s p q).queues := by
  obtain ⟨hd, hb⟩ := hs
  cases hw : w p <;>
    simp [fireOneStep, hw, ledgerInv, deliverUnits_coalesce_ignore,
      bulkCount_coalesce_ignore, hd, hb]

theorem ledgerInv_fireManyStep (w : Nat → SendOutcome) (s : Queues) (p : Nat) (qs : List Query)
    (hs : ledgerInv s) : ledgerInv (fireManyStep w s p qs).queues := by
  obtain ⟨hd, hb⟩ := hs
  cases hst : (sendAll w p qs).status <;>
    simp [fireManyStep, hst, ledgerInv, deliverUnits_coalesce_ignore,
      bulkCount_coalesce_ignore, hd, hb]

theorem ledgerInv_awaitOneStep (w : Nat → SendOutcome) (s : Queues) (p : Nat) (q : Query)
    (k : Nat) (hs : ledgerInv s) : ledgerInv (awaitOneStep w s p q k).queues := by
  obtain ⟨hd, hb⟩ := hs
  cases hw : w p <;>
    simp [awaitOneStep, hw, ledgerInv, deliverUnits_coalesce_deliver,
      bulkCount_coalesce_deliver, hd, hb]

theorem ledgerInv_awaitManyStep (w : Nat → SendOutcome) (s : Queues) (p : Nat)
    (qs : List Query) (k : Nat) (hs : ledgerInv s) :
    ledgerInv (awaitManyStep w s p qs k).queues := by
  obtain ⟨hd, hb⟩ := hs
  cases hst : (sendAll w p qs).status <;>
    simp [awaitManyStep, hst, ledgerInv, deliverUnits_pushBulk, bulkCount_pushBulk, hd, hb]

/-- The `Deliver` branch with enough promises queued and no cancellation:
it completes and pops exactly `Amount` promises. -/
theorem readDeliver_ok (w : Nat → ReadOutcome) :
    ∀ (n pos : Nat) (proms : List Nat), n ≤ proms.length →
      (readDeliver w pos n proms).outcome ≠ .unwind →
      (readDeliver w pos n proms).outcome = .ok ∧
      (readDeliver w pos n proms).proms.length + n = proms.length := by
  intro n
  induction n with
  | zero => intro pos proms _ _; simp [readDeliver]
  | succ n ih =>
    intro pos proms hlen hnu
    cases proms with
    | nil => simp at hlen
    | cons p ps =>
      have hlen' : n ≤ ps.length := by simp only [List.length_cons] at hlen; omega
      cases hw : w pos with
      | ok v =>
        simp only [readDeliver, hw] at hnu ⊢
        have h2 := ih (pos + 1) ps hlen' hnu
        refine ⟨h2.1, ?_⟩
        have h3 := h2.2
        simp only [List.length_cons]
        omega
      | err e =>
        simp only [readDeliver, hw] at hnu ⊢
        have h2 := ih (pos + 1) ps hlen' hnu
        refine ⟨h2.1, ?_⟩
        have h3 := h2.2
        simp only [List.length_cons]
        omega
      | unwind => simp [readDeliver, hw] at hnu

/-- C1: in every state satisfying the ledger/FIFO lockstep invariant, the
number of `Deliver` units in the `FutureResponseActions` ledger equals the
length of `ReplyPromises` and the number of `DeliverBulk` records equals the
length of `RepliesPromises`, and both equalities are preserved by every
`WriteItem` call and by the processing of one ledger entry in `ReadLoop`
(an entry whose processing is aborted by the coroutine-cancellation
`forced_unwind` is not a processed entry). -/
theorem ledger_promise_lockstep_preserved (st : Queues) (h : ledgerInv st) :
    (∀ (w : Nat → SendOutcome) (pos : Nat) (it : WriteQueueItem),
      ledgerInv (writeItem w st pos it).queues) ∧
    (∀ (w : Nat → ReadOutcome) (pos : Nat),
      (readLoopStep w st pos).outcome ≠ .unwind →
      ledgerInv (readLoopStep w st pos).queues) ∧
    ledgerInv ⟨[], [], []⟩ := by
  refine ⟨?_, ?_, by decide⟩
  · intro w pos it
    exact writeItem_queues_pres ledgerInv ledgerInv_fireOneStep ledgerInv_fireManyStep
      ledgerInv_awaitOneStep ledgerInv_awaitManyStep w st pos it h
  · intro w pos hnu
    obtain ⟨ledger, rp, rps⟩ := st
    cases ledger with
    | nil => exact h
    | cons fra rest =>
      obtain ⟨amt, act⟩ := fra
      obtain ⟨hd, hb⟩ := h
      simp only [deliverUnits, bulkCount] at hd hb
      cases act with
      | Ignore =>
        simp at hd hb
        exact ⟨hd, hb⟩
      | Deliver =>
        simp at hd hb
        have hle : amt ≤ rp.length := by omega
        have h2 := readDeliver_ok w amt pos rp hle hnu
        have h3 := h2.2
        refine ⟨?_, hb⟩
        show deliverUnits rest = (readDeliver w pos amt rp).proms.length
        omega
      | DeliverBulk =>
        simp at hd hb
        cases rps with
        | nil => simp at hb
        | cons sink ps =>
          refine ⟨hd, ?_⟩
          show bulkCount rest = ps.length
          simp only [List.length_cons] at hb
          omega

/-- Witness for `ledger_promise_lockstep_preserved` at a concrete state, a
concrete `GetResultOfQuery` item and a concrete `Deliver` ledger entry. -/
theorem ledger_promise_lockstep_preserved_witness :
    ledgerInv (writeItem (fun _ => SendOutcome.ok)
        ⟨[⟨2, .Deliver⟩, ⟨1, .DeliverBulk⟩], [10, 11], [12]⟩ 0
        ⟨none, none, some ([[1]], 13), none⟩).queues ∧
    ledgerInv (readLoopStep (fun t => ReadOutcome.ok t)
        ⟨[⟨2, .Deliver⟩, ⟨1, .DeliverBulk⟩], [10, 11], [12]⟩ 0).queues :=
  ⟨(ledger_promise_lockstep_preserved ⟨[⟨2, .Deliver⟩, ⟨1, .DeliverBulk⟩], [10, 11], [12]⟩
      (by decide)).1 (fun _ => SendOutcome.ok) 0 ⟨none, none, some ([[1]], 13), none⟩,
   (ledger_promise_lockstep_preserved ⟨[⟨2, .Deliver⟩, ⟨1, .DeliverBulk⟩], [10, 11], [12]⟩
      (by decide)).2.1 (fun t => ReadOutcome.ok t) 0 (by decide)⟩

/-! ## C4: ledger coalescing -/

theorem ledgerCoalesce_snoc_same (a : ResponseAction) :
    ∀ (l : List FutureResponseAction) (m k : Nat),
      ledgerCoalesce (l ++ [⟨m, a⟩]) k a = l ++ [⟨m + k, a⟩] := by
  intro l
  induction l with
  | nil => intro m k; simp [ledgerCoalesce]
  | cons x l ih =>
    intro m k
    cases l with
    | nil => simp [ledgerCoalesce]
    | cons y l' =>
      simp only [List.cons_append, ledgerCoalesce, List.cons.injEq, true_and]
      exact ih m k

theorem ledgerCoalesce_snoc_new :
    ∀ (l : List FutureResponseAction) (k : Nat) (a : ResponseAction)
      (x : FutureResponseAction), l.getLast? = some x → x.Action ≠ a →
      ledgerCoalesce l k a = l ++ [⟨k, a⟩] := by
  intro l
  induction l with
  | nil => intro k a x hx _; simp at hx
  | cons z l ih =>
    intro k a x hx hne
    cases l with
    | nil =>
      simp only [List.getLast?_singleton, Option.some.injEq] at hx
      subst hx
      simp [ledgerCoalesce, hne]
    | cons y l' =>
      rw [List.getLast?_cons_cons] at hx
      simp [List.cons_append, ledgerCoalesce, ih k a x hx hne]

theorem noAdjDup_foldl :
    ∀ (ops : List LedgerOp) (l : List FutureResponseAction), noAdjDup l = true →
      noAdjDup (ops.foldl applyLedgerOp l) = true := by
  intro ops
  induction ops with
  | nil => intro l h; simpa
  | cons op ops ih =>
    intro l h
    simp only [List.foldl_cons]
    apply ih
    cases op with
    | pushIgnore k => exact noAdjDup_coalesce l k _ h
    | pushDeliver k => exact noAdjDup_coalesce l k _ h
    | pushBulk k => exact noAdjDup_pushBulk l k h
    | popFront => exact noAdjDup_tail l h

/-- C4: appending coalesces exactly as `WriteItem` does — an `Ignore(k)`
(resp. `Deliver(k)`) append merges into an `Ignore(m)` (resp. `Deliver(m)`)
tail record, otherwise appends a new record; a `DeliverBulk(k)` append always
creates a new record; consequently after any sequence of appends and
front-pops (starting from the empty ledger) no two adjacent records are both
`Ignore` and no two are both `Deliver`. -/
theorem ledger_coalescing :
    (∀ (l : List FutureResponseAction) (m k : Nat),
      ledgerCoalesce (l ++ [⟨m, .Ignore⟩]) k .Ignore = l ++ [⟨m + k, .Ignore⟩]) ∧
    (∀ (l : List FutureResponseAction) (m k : Nat),
      ledgerCoalesce (l ++ [⟨m, .Deliver⟩]) k .Deliver = l ++ [⟨m + k, .Deliver⟩]) ∧
    (∀ (l : List FutureResponseAction) (k : Nat) (a : ResponseAction)
      (x : FutureResponseAction), l.getLast? = some x → x.Action ≠ a →
      ledgerCoalesce l k a = l ++ [⟨k, a⟩]) ∧
    (∀ (k : Nat) (a : ResponseAction), ledgerCoalesce [] k a = [⟨k, a⟩]) ∧
    (∀ (l : List FutureResponseAction) (m k : Nat),
      ledgerPushBulk (l ++ [⟨m, .DeliverBulk⟩]) k =
        l ++ [⟨m, .DeliverBulk⟩, ⟨k, .DeliverBulk⟩]) ∧
    (∀ ops : List LedgerOp, noAdjDup (applyLedgerOps ops) = true) := by
  refine ⟨ledgerCoalesce_snoc_same .Ignore, ledgerCoalesce_snoc_same .Deliver,
    ledgerCoalesce_snoc_new, fun k a => rfl, ?_, ?_⟩
  · intro l m k
    simp [ledgerPushBulk]
  · intro ops
    exact noAdjDup_foldl ops [] rfl

/-- Witness for `ledger_coalescing`: a `Deliver` append onto an `Ignore`
tail creates a new record. -/
theorem ledger_coalescing_witness :
    ledgerCoalesce [⟨2, .Ignore⟩] 3 .Deliver = [⟨2, .Ignore⟩, ⟨3, .Deliver⟩] :=
  ledger_coalescing.2.2.1 [⟨2, .Ignore⟩] 3 .Deliver ⟨2, .Ignore⟩ (by decide) (by decide)

/-! ## C2: strict priority in the write loop scan -/

/-- C2: the scan of `WriteLoop` never selects (and hence `WriteItem` never
sends) an item of priority `p` while some non-suppressed queue of strictly
higher priority `q < p` is non-empty; and whenever some non-suppressed queue
at priority `q` is non-empty, the scan selects an item of priority at most
`q`.  Since the `goto WriteFirstOfHighestPrio` restarts the scan from the
highest priority class after every single transmitted item, an item enqueued
at priority `q < p` before the writer selects its next item is therefore
selected before any item of priority `p`. -/
theorem writeLoop_strict_priority (ws : WriteQueues) (supp : List Nat)
    (hs : ws.Pairwise fun a b => a.1 < b.1) :
    (∀ p it rest, selectNext ws supp = some (p, it, rest) →
      ∀ q ql, (q, ql) ∈ ws → q < p → supp.contains q = true ∨ ql = []) ∧
    (∀ q ql, (q, ql) ∈ ws → ql ≠ [] → supp.contains q = false →
      ∃ p it rest, selectNext ws supp = some (p, it, rest) ∧ p ≤ q) := by
  induction ws with
  | nil =>
    constructor
    · intro p it rest hsel
      simp [selectNext] at hsel
    · intro q ql hmem
      simp at hmem
  | cons hd tl ih =>
    obtain ⟨prio, queue⟩ := hd
    rw [List.pairwise_cons] at hs
    obtain ⟨hlt, htl⟩ := hs
    have ih' := ih htl
    by_cases hsupp : supp.contains prio = true
    · have hstep : selectNext ((prio, queue) :: tl) supp =
          (selectNext tl supp).map fun r => (r.1, r.2.1, (prio, queue) :: r.2.2) := by
        simp only [selectNext]
        rw [if_pos hsupp]
      constructor
      · intro p it rest hsel q ql hmem hq
        rw [hstep, Option.map_eq_some'] at hsel
        obtain ⟨⟨p', it', rest'⟩, hsel', heq⟩ := hsel
        simp only [Prod.mk.injEq] at heq
        obtain ⟨hp, -, -⟩ := heq
        subst hp
        rcases List.mem_cons.mp hmem with hhd | htl2
        · cases hhd
          exact Or.inl hsupp
        · exact ih'.1 p' it' rest' hsel' q ql htl2 hq
      · intro q ql hmem hne hnsupp
        rcases List.mem_cons.mp hmem with hhd | htl2
        · cases hhd
          rw [hsupp] at hnsupp
          cases hnsupp
        · obtain ⟨p, it, rest, hsel, hple⟩ := ih'.2 q ql htl2 hne hnsupp
          exact ⟨p, it, (prio, queue) :: rest, by rw [hstep, hsel]; rfl, hple⟩
    · have hsupp' : ¬ (supp.contains prio = true) := hsupp
      cases queue with
      | nil =>
        have hstep : selectNext ((prio, []) :: tl) supp =
            (selectNext tl supp).map fun r => (r.1, r.2.1, (prio, []) :: r.2.2) := by
          simp only [selectNext]
          rw [if_neg hsupp']
        constructor
        · intro p it rest hsel q ql hmem hq
          rw [hstep, Option.map_eq_some'] at hsel
          obtain ⟨⟨p', it', rest'⟩, hsel', heq⟩ := hsel
          simp only [Prod.mk.injEq] at heq
          obtain ⟨hp, -, -⟩ := heq
          subst hp
          rcases List.mem_cons.mp hmem with hhd | htl2
          · cases hhd
            exact Or.inr rfl
          · exact ih'.1 p' it' rest' hsel' q ql htl2 hq
        · intro q ql hmem hne hnsupp
          rcases List.mem_cons.mp hmem with hhd | htl2
          · cases hhd
            cases hne rfl
          · obtain ⟨p, it, rest, hsel, hple⟩ := ih'.2 q ql htl2 hne hnsupp
            exact ⟨p, it, (prio, []) :: rest, by rw [hstep, hsel]; rfl, hple⟩
      | cons it0 q' =>
        have hstep : selectNext ((prio, it0 :: q') :: tl) supp =
            some (prio, it0, (prio, q') :: tl) := by
          simp only [selectNext]
          rw [if_neg hsupp']
        constructor
        · intro p it rest hsel q ql hmem hq
          rw [hstep] at hsel
          simp only [Option.some.injEq, Prod.mk.injEq] at hsel
          obtain ⟨hp, -, -⟩ := hsel
          subst hp
          rcases List.mem_cons.mp hmem with hhd | htl2
          · cases hhd
            omega
          · have := hlt (q, ql) htl2
            omega
        · intro q ql hmem hne hnsupp
          refine ⟨prio, it0, (prio, q') :: tl, hstep, ?_⟩
          rcases List.mem_cons.mp hmem with hhd | htl2
          · cases hhd
            exact Nat.le_refl _
          · exact Nat.le_of_lt (hlt (q, ql) htl2)

/-- Witness for `writeLoop_strict_priority`: with queues at priorities
0 (empty), 1 (non-empty) and 2 (non-empty) and nothing suppressed, the scan
selects the priority-1 item. -/
theorem writeLoop_strict_priority_witness :
    ∃ p it rest,
      selectNext [(0, []), (1, [(⟨none, none, none, none⟩ : WriteQueueItem)]),
        (2, [(⟨some [], none, none, none⟩ : WriteQueueItem)])] [] = some (p, it, rest) ∧
      p ≤ 1 :=
  (writeLoop_strict_priority
      [(0, []), (1, [⟨none, none, none, none⟩]), (2, [⟨some [], none, none, none⟩])] []
      (by decide)).2 1 [⟨none, none, none, none⟩] (by decide) (by decide) (by decide)

/-! ## C3: `GetResultsOfQueries` round trip -/

/-- When every `WriteOne` call succeeds, the whole list is written
back-to-back, consuming exactly `qs.length` consecutive oracle positions. -/
theorem sendAll_ok (w : Nat → SendOutcome) :
    ∀ (qs : List Query) (pos : Nat), (∀ i < qs.length, w (pos + i) = .ok) →
      sendAll w pos qs = ⟨pos + qs.length, qs, .ok⟩ := by
  intro qs
  induction qs with
  | nil => intro pos _; simp [sendAll]
  | cons q qs ih =>
    intro pos h
    have h0 : w pos = .ok := by simpa using h 0 (by simp)
    have hrest : ∀ i < qs.length, w (pos + 1 + i) = .ok := by
      intro i hi
      have := h (i + 1) (by simp; omega)
      simpa [Nat.add_assoc, Nat.add_comm 1 i] using this
    simp only [sendAll, h0, ih (pos + 1) hrest, SendAllRes.mk.injEq, List.length_cons,
      and_true, true_and]
    omega

theorem readVals_length (w : Nat → ReadOutcome) :
    ∀ (n pos : Nat), (readVals w pos n).length = n := by
  intro n
  induction n with
  | zero => intro pos; simp [readVals]
  | succ n ih => intro pos; simp [readVals, ih]

theorem readVals_getD (w : Nat → ReadOutcome) :
    ∀ (n pos i : Nat), i < n →
      (readVals w pos n).getD i 0 = replyOf (w (pos + i)) := by
  intro n
  induction n with
  | zero => intro pos i hi; omega
  | succ n ih =>
    intro pos i hi
    cases i with
    | zero => simp [readVals]
    | succ i =>
      have hidx : pos + (i + 1) = pos + 1 + i := by omega
      rw [hidx]
      simp only [readVals, List.getD_cons_succ]
      exact ih (pos + 1) i (by omega)

/-- When every `ReadOne` call of a `DeliverBulk(n)` entry succeeds, the inner
`for` accumulates the `n` replies at consecutive oracle positions and the
final `set_value` fulfills the promise with them. -/
theorem readBulkLoop_ok (w : Nat → ReadOutcome) (sink : Nat) :
    ∀ (n pos : Nat) (acc : List Reply), (∀ i < n, ∃ v, w (pos + i) = .ok v) →
      readBulkLoop w sink pos n acc none =
        ⟨pos + n, [.sinkValues sink (acc ++ readVals w pos n)], .ok⟩ := by
  intro n
  induction n with
  | zero => intro pos acc _; simp [readBulkLoop, readVals]
  | succ n ih =>
    intro pos acc h
    obtain ⟨v, hv⟩ := h 0 (by omega)
    rw [Nat.add_zero] at hv
    have hrest : ∀ i < n, ∃ u, w (pos + 1 + i) = .ok u := by
      intro i hi
      obtain ⟨u, hu⟩ := h (i + 1) (by omega)
      exact ⟨u, by rw [show pos + 1 + i = pos + (i + 1) by omega]; exact hu⟩
    simp only [readBulkLoop, hv, ih (pos + 1) (acc ++ [v]) hrest, BulkRes.mk.injEq]
    refine ⟨by omega, ?_, trivial⟩
    simp [readVals, hv, replyOf]

/-- C3: for a non-empty query list `qs` of length `n`, `WriteItem` on a
`GetResultsOfQueries` item (the payload of `await_many`) with all sends
succeeding writes the `n` commands back-to-back at consecutive send-oracle
positions, enqueues the caller's list-sink, and records exactly one
`DeliverBulk` record of `Amount n`; and `ReadLoop`, processing that entry at
the front of the ledger with all reads succeeding, pops that sink and
fulfills it with exactly the `n` replies read at consecutive read-oracle
positions — the i-th delivered reply being the reply at offset `i`, the
reply to `qs[i]`, with no other reply interleaved. -/
theorem awaitMany_contiguous_delivery (qs : List Query) (sink : Nat) (st : Queues)
    (pos : Nat) (w : Nat → SendOutcome) (hne : qs ≠ [])
    (hok : ∀ i < qs.length, w (pos + i) = .ok) :
    (writeItem w st pos ⟨none, none, none, some (qs, sink)⟩ =
      ⟨⟨st.FutureResponseActions ++ [⟨qs.length, .DeliverBulk⟩],
        st.ReplyPromises, st.RepliesPromises ++ [sink]⟩,
        pos + qs.length, qs, [], .completed⟩) ∧
    (∀ (r : Nat → ReadOutcome) (rest : List FutureResponseAction)
        (prs ps : List Nat) (rpos : Nat),
      (∀ i < qs.length, ∃ v, r (rpos + i) = .ok v) →
      readLoopStep r ⟨⟨qs.length, .DeliverBulk⟩ :: rest, prs, sink :: ps⟩ rpos =
        ⟨⟨rest, prs, ps⟩, rpos + qs.length,
          [.sinkValues sink (readVals r rpos qs.length)], .ok⟩ ∧
      (readVals r rpos qs.length).length = qs.length ∧
      (∀ i < qs.length, (readVals r rpos qs.length).getD i 0 = replyOf (r (rpos + i)))) := by
  constructor
  · simp only [writeItem, seqSlot, awaitManyStep, sendAll_ok w qs pos hok, ledgerPushBulk]
    rfl
  · intro r rest prs ps rpos hrok
    refine ⟨?_, readVals_length r qs.length rpos, fun i hi => readVals_getD r qs.length rpos i hi⟩
    simp only [readLoopStep, readBulkLoop_ok r sink qs.length rpos [] hrok]
    rfl

/-- Witness for `awaitMany_contiguous_delivery` with two queries. -/
theorem awaitMany_contiguous_delivery_witness :
    writeItem (fun _ => SendOutcome.ok) ⟨[], [], []⟩ 0
        ⟨none, none, none, some ([[[1]], [[2]]], 6)⟩ =
      ⟨⟨[⟨2, .DeliverBulk⟩], [], [6]⟩, 2, [[[1]], [[2]]], [], .completed⟩ ∧
    readLoopStep (fun t => ReadOutcome.ok (t + 50)) ⟨[⟨2, .DeliverBulk⟩], [], [6]⟩ 0 =
      ⟨⟨[], [], []⟩, 2, [.sinkValues 6 (readVals (fun t => ReadOutcome.ok (t + 50)) 0 2)], .ok⟩ := by
  have h := awaitMany_contiguous_delivery [[[1]], [[2]]] 6 ⟨[], [], []⟩ 0
    (fun _ => SendOutcome.ok) (by decide) (fun i _ => rfl)
  exact ⟨h.1, (h.2 (fun t => ReadOutcome.ok (t + 50)) [] [] [] 0
    (fun i _ => ⟨0 + i + 50, rfl⟩)).1⟩

/-! ## C6: send failure on result-bearing items -/

/-- C6: when sending a result-bearing item fails with a non-cancellation
exception, `WriteItem` fails the caller's sink with that exception and
changes nothing else: the shared queues (ledger and both promise FIFOs) are
left exactly as they were, and the only event is the sink failure.  First
conjunct: `GetResultOfQuery` (`await_one`); second: `GetResultsOfQueries`
(`await_many`), where the failure may strike after a prefix was written. -/
theorem resultBearing_send_failure_fails_sink_only :
    (∀ (w : Nat → SendOutcome) (st : Queues) (pos : Nat) (q : Query) (sink e : Nat),
      w pos = .err e →
      writeItem w st pos ⟨none, none, some (q, sink), none⟩ =
        ⟨st, pos + 1, [], [.sinkFailure sink e], .returned⟩) ∧
    (∀ (w : Nat → SendOutcome) (st : Queues) (pos : Nat) (qs : List Query)
        (sink e p' : Nat) (s : List Query),
      sendAll w pos qs = ⟨p', s, .err e⟩ →
      writeItem w st pos ⟨none, none, none, some (qs, sink)⟩ =
        ⟨st, p', s, [.sinkFailure sink e], .returned⟩) := by
  constructor
  · intro w st pos q sink e h
    simp [writeItem, seqSlot, awaitOneStep, h]
  · intro w st pos qs sink e p' s h
    simp [writeItem, seqSlot, awaitManyStep, h]

/-- Witness for `resultBearing_send_failure_fails_sink_only`. -/
theorem resultBearing_send_failure_fails_sink_only_witness :
    writeItem (fun _ => SendOutcome.err 3) ⟨[⟨1, .Ignore⟩], [8], [9]⟩ 0
        ⟨none, none, some ([[1]], 5), none⟩ =
      ⟨⟨[⟨1, .Ignore⟩], [8], [9]⟩, 1, [], [.sinkFailure 5 3], .returned⟩ ∧
    writeItem (fun _ => SendOutcome.err 4) ⟨[⟨1, .Ignore⟩], [8], [9]⟩ 0
        ⟨none, none, none, some ([[[2]]], 6)⟩ =
      ⟨⟨[⟨1, .Ignore⟩], [8], [9]⟩, 1, [], [.sinkFailure 6 4], .returned⟩ :=
  ⟨resultBearing_send_failure_fails_sink_only.1 (fun _ => SendOutcome.err 3)
      ⟨[⟨1, .Ignore⟩], [8], [9]⟩ 0 [[1]] 5 3 rfl,
   resultBearing_send_failure_fails_sink_only.2 (fun _ => SendOutcome.err 4)
      ⟨[⟨1, .Ignore⟩], [8], [9]⟩ 0 [[[2]]] 6 4 1 [] rfl⟩

/-! ## C10: `await_many` with an empty query list -/

/-- C10: `WriteItem` on a `GetResultsOfQueries` item with an empty query
list writes nothing (the send oracle is not consumed), cannot fail, still
enqueues the list-sink and a `DeliverBulk` record of `Amount 0`; and
`ReadLoop`, processing that entry, pops the sink, performs zero reads and
fulfills the sink with the empty reply list, continuing normally — so the
caller's future is fulfilled with `[]` rather than blocking or failing. -/
theorem awaitMany_empty_list_ok :
    (∀ (w : Nat → SendOutcome) (st : Queues) (pos sink : Nat),
      writeItem w st pos ⟨none, none, none, some ([], sink)⟩ =
        ⟨⟨st.FutureResponseActions ++ [⟨0, .DeliverBulk⟩], st.ReplyPromises,
          st.RepliesPromises ++ [sink]⟩, pos, [], [], .completed⟩) ∧
    (∀ (r : Nat → ReadOutcome) (rest : List FutureResponseAction)
        (prs ps : List Nat) (sink rpos : Nat),
      readLoopStep r ⟨⟨0, .DeliverBulk⟩ :: rest, prs, sink :: ps⟩ rpos =
        ⟨⟨rest, prs, ps⟩, rpos, [.sinkValues sink []], .ok⟩) :=
  ⟨fun w st pos sink => rfl, fun r rest prs ps sink rpos => rfl⟩

/-! ## C5: decode failure while processing a `DeliverBulk` entry -/

/-- C5 (failing input): a `DeliverBulk(1)` ledger entry whose single read
fails with a non-cancellation exception.  The popped list-sink is resolved
with that failure by `promise.set_exception`; but then the unconditional
`promise.set_value(std::move(replies))` after the `for` loop
(redisconnection.cpp:328) is executed on the already-satisfied promise and
throws `std::future_error`, which nothing in `ReadLoop` catches — the step's
outcome is `thrown`, not `ok`, so the read loop does NOT continue with
subsequent ledger entries as the specification claims. -/
theorem deliverBulk_decode_failure_throws :
    readLoopStep (fun _ => ReadOutcome.err 9) ⟨[⟨1, .DeliverBulk⟩], [], [4]⟩ 0 =
      ⟨⟨[], [], []⟩, 1, [.sinkFailure 4 9], .thrown⟩ := rfl

/-! ## C8: `Amount` positivity -/

/-- C8 (counterexample): the claim that every ledger record ever created has
`Amount ≥ 1` — "including calls whose query list is empty" — is false: a
`GetResultsOfQueries` item with an empty query list (an `await_many([])`
call) makes `WriteItem` emplace a `DeliverBulk` record with
`Amount = item.first.size() = 0`. -/
theorem fra_amount_positive_cex :
    ¬ (∀ fra ∈ (writeItem (fun _ => SendOutcome.ok) ⟨[], [], []⟩ 0
        ⟨none, none, none, some ([], 7)⟩).queues.FutureResponseActions,
        1 ≤ fra.Amount) := by
  decide

theorem amountPos_coalesce :
    ∀ (l : List FutureResponseAction) (k : Nat) (a : ResponseAction), 1 ≤ k →
      (∀ r ∈ l, 1 ≤ r.Amount) → ∀ r ∈ ledgerCoalesce l k a, 1 ≤ r.Amount := by
  intro l
  induction l with
  | nil =>
    intro k a hk _ r hr
    simp [ledgerCoalesce] at hr
    subst hr
    exact hk
  | cons x l ih =>
    intro k a hk h r hr
    cases l with
    | nil =>
      by_cases hxa : x.Action = a
      · simp [ledgerCoalesce, hxa] at hr
        subst hr
        simp
        omega
      · simp [ledgerCoalesce, hxa] at hr
        rcases hr with hr | hr <;> subst hr
        · exact h _ (by simp)
        · exact hk
    | cons y m =>
      simp only [ledgerCoalesce, List.mem_cons] at hr
      rcases hr with hr | hr
      · subst hr
        exact h r (by simp)
      · exact ih k a hk (fun u hu => h u (List.mem_cons_of_mem x hu)) r hr

theorem amountPos_pushBulk :
    ∀ (l : List FutureResponseAction) (k : Nat), 1 ≤ k →
      (∀ r ∈ l, 1 ≤ r.Amount) → ∀ r ∈ ledgerPushBulk l k, 1 ≤ r.Amount := by
  intro l k hk h r hr
  rw [ledgerPushBulk, List.mem_append] at hr
  rcases hr with hr | hr
  · exact h r hr
  · simp at hr
    subst hr
    exact hk

theorem amountPos_fireOneStep (w : Nat → SendOutcome) (s : Queues) (p : Nat) (q : Query)
    (hs : ∀ r ∈ s.FutureResponseActions, 1 ≤ r.Amount) :
    ∀ r ∈ (fireOneStep w s p q).queues.FutureResponseActions, 1 ≤ r.Amount := by
  cases hw : w p <;> simp only [fireOneStep, hw]
  · exact amountPos_coalesce s.FutureResponseActions 1 .Ignore (by omega) hs
  · exact hs
  · exact hs

theorem amountPos_fireManyStep (w : Nat → SendOutcome) (s : Queues) (p : Nat)
    (qs : List Query) (hqs : qs ≠ [])
    (hs : ∀ r ∈ s.FutureResponseActions, 1 ≤ r.Amount) :
    ∀ r ∈ (fireManyStep w s p qs).queues.FutureResponseActions, 1 ≤ r.Amount := by
  have hk : 1 ≤ qs.length := List.length_pos.mpr hqs
  cases hst : (sendAll w p qs).status <;> simp only [fireManyStep, hst]
  · exact amountPos_coalesce s.FutureResponseActions qs.length .Ignore hk hs
  · exact hs
  · exact hs

theorem amountPos_awaitOneStep (w : Nat → SendOutcome) (s : Queues) (p : Nat) (q : Query)
    (k : Nat) (hs : ∀ r ∈ s.FutureResponseActions, 1 ≤ r.Amount) :
    ∀ r ∈ (awaitOneStep w s p q k).queues.FutureResponseActions, 1 ≤ r.Amount := by
  cases hw : w p <;> simp only [awaitOneStep, hw]
  · exact amountPos_coalesce s.FutureResponseActions 1 .Deliver (by omega) hs
  · exact hs
  · exact hs

theorem amountPos_awaitManyStep (w : Nat → SendOutcome) (s : Queues) (p : Nat)
    (qs : List Query) (k : Nat) (hqs : qs ≠ [])
    (hs : ∀ r ∈ s.FutureResponseActions, 1 ≤ r.Amount) :
    ∀ r ∈ (awaitManyStep w s p qs k).queues.FutureResponseActions, 1 ≤ r.Amount := by
  have hk : 1 ≤ qs.length := List.length_pos.mpr hqs
  cases hst : (sendAll w p qs).status <;> simp only [awaitManyStep, hst]
  · exact amountPos_pushBulk s.FutureResponseActions qs.length hk hs
  · exact hs
  · exact hs

/-- C8 (amended): every ledger record created by `WriteItem` has
`Amount ≥ 1` provided the `FireAndForgetQueries` and `GetResultsOfQueries`
payloads (if present) carry non-empty query lists; calls with empty lists
are exactly the exception exhibited by `fra_amount_positive_cex`. -/
theorem fra_amount_positive_nonempty (w : Nat → SendOutcome) (st : Queues) (pos : Nat)
    (it : WriteQueueItem)
    (hst : ∀ r ∈ st.FutureResponseActions, 1 ≤ r.Amount)
    (hMany : ∀ qs, it.FireAndForgetQueries = some qs → qs ≠ [])
    (hBulk : ∀ qs k, it.GetResultsOfQueries = some (qs, k) → qs ≠ []) :
    ∀ r ∈ (writeItem w st pos it).queues.FutureResponseActions, 1 ≤ r.Amount := by
  obtain ⟨o1, o2, o3, o4⟩ := it
  simp only at hMany hBulk
  cases o1 <;> cases o2 <;> cases o3 <;> cases o4 <;>
    simp only [writeItem] <;>
    (repeat'
      first
        | exact hst
        | exact amountPos_fireOneStep _ _ _ _ hst
        | apply seqSlot_pres (fun s => ∀ r ∈ s.FutureResponseActions, 1 ≤ r.Amount)
        | (intro s p hs;
           first
             | exact amountPos_fireManyStep _ _ _ _ (hMany _ rfl) hs
             | exact amountPos_awaitOneStep _ _ _ _ _ hs
             | exact amountPos_awaitManyStep _ _ _ _ _ (hBulk _ _ rfl) hs))

/-- Witness for `fra_amount_positive_nonempty`. -/
theorem fra_amount_positive_nonempty_witness :
    ((writeItem (fun _ => SendOutcome.ok) ⟨[⟨2, .Ignore⟩], [], []⟩ 0
        ⟨some [[1]], some [[[2]], [[3]]], none,
          some ([[[4]]], 9)⟩).queues.FutureResponseActions.all
      fun r => decide (1 ≤ r.Amount)) = true := by
  have h := fra_amount_positive_nonempty (fun _ => SendOutcome.ok) ⟨[⟨2, .Ignore⟩], [], []⟩ 0
    ⟨some [[1]], some [[[2]], [[3]]], none, some ([[[4]]], 9)⟩
    (by decide) (by intro qs hq; cases hq; decide) (by intro qs k hq; cases hq; decide)
  simp only [List.all_eq_true, decide_eq_true_eq]
  exact h

/-! ## C9: `LogQuery` redaction -/

theorem logQueryAux_spec :
    ∀ (q : List Arg) (i : Nat), i ≤ 7 →
      logQueryAux i q =
        (q.take (7 - i)).map (fun arg =>
          if 64 < arg.length then LogTok.argTok (arg.take 61 ++ ellipsisBytes)
          else LogTok.argTok arg) ++
        (if 7 - i < q.length then [LogTok.ellipsisTok] else []) := by
  intro q
  induction q with
  | nil => intro i _; simp [logQueryAux]
  | cons a rest ih =>
    intro i hi
    by_cases h8 : i + 1 = 8
    · have hi7 : i = 7 := by omega
      subst hi7
      simp [logQueryAux]
    · have h7 : 7 - i = (7 - (i + 1)) + 1 := by omega
      simp only [logQueryAux, if_neg h8, ih (i + 1) (by omega)]
      rw [h7, List.take_succ_cons, List.map_cons, List.cons_append, List.length_cons]
      by_cases hcc : 7 - (i + 1) < rest.length
      · rw [if_pos hcc, if_pos (by omega : 7 - (i + 1) + 1 < rest.length + 1)]
      · rw [if_neg hcc, if_neg (by omega : ¬ (7 - (i + 1) + 1 < rest.length + 1))]

/-- C9: the redacted form logged for every query passed to any of the four
submission operations contains at most the first 7 arguments, each argument
replaced by its first 61 bytes followed by `"..."` when it is too long
(longer than 64 bytes), with a trailing `" ..."` token appended exactly when
the query has more than 7 arguments. -/
theorem logQuery_redaction (q : List Arg) :
    logQuery q =
      (q.take 7).map (fun arg =>
        if 64 < arg.length then LogTok.argTok (arg.take 61 ++ ellipsisBytes)
        else LogTok.argTok arg) ++
      (if 7 < q.length then [LogTok.ellipsisTok] else []) := by
  have h := logQueryAux_spec q 0 (by omega)
  simpa [logQuery] using h

/-! ## C7: `forced_unwind` is always re-raised -/

theorem sendAll_props (w : Nat → SendOutcome) :
    ∀ (qs : List Query) (pos : Nat),
      pos ≤ (sendAll w pos qs).pos ∧
      ((sendAll w pos qs).status = .unwind → w ((sendAll w pos qs).pos - 1) = .unwind) ∧
      ((sendAll w pos qs).status ≠ .unwind →
        ∀ t, pos ≤ t → t < (sendAll w pos qs).pos → w t ≠ .unwind) := by
  intro qs
  induction qs with
  | nil =>
    intro pos
    refine ⟨Nat.le_refl _, ?_, ?_⟩
    · intro h
      simp [sendAll] at h
    · intro _ t ht1 ht2
      simp [sendAll] at ht2
      omega
  | cons q qs ih =>
    intro pos
    cases hw : w pos with
    | ok =>
      obtain ⟨m1, m2, m3⟩ := ih (pos + 1)
      simp only [sendAll, hw]
      refine ⟨by omega, m2, ?_⟩
      intro hnu t ht1 ht2
      by_cases htp : t = pos
      · subst htp
        rw [hw]
        simp
      · exact m3 hnu t (by omega) ht2
    | err e =>
      simp only [sendAll, hw]
      refine ⟨by omega, by simp, ?_⟩
      intro _ t ht1 ht2
      have htp : t = pos := by omega
      subst htp
      rw [hw]
      simp
    | unwind =>
      simp only [sendAll, hw]
      refine ⟨by omega, ?_, ?_⟩
      · intro _
        simpa using hw
      · intro hnu
        exact absurd rfl hnu

theorem readIgnore_props (w : Nat → ReadOutcome) :
    ∀ (n pos : Nat),
      pos ≤ (readIgnore w pos n).pos ∧
      ((readIgnore w pos n).unwound = true → w ((readIgnore w pos n).pos - 1) = .unwind) ∧
      ((readIgnore w pos n).unwound = false →
        ∀ t, pos ≤ t → t < (readIgnore w pos n).pos → w t ≠ .unwind) := by
  intro n
  induction n with
  | zero =>
    intro pos
    refine ⟨Nat.le_refl _, ?_, ?_⟩
    · intro h
      simp [readIgnore] at h
    · intro _ t ht1 ht2
      simp [readIgnore] at ht2
      omega
  | succ n ih =>
    intro pos
    cases hw : w pos with
    | ok v =>
      obtain ⟨m1, m2, m3⟩ := ih (pos + 1)
      simp only [readIgnore, hw]
      refine ⟨by omega, m2, ?_⟩
      intro hnu t ht1 ht2
      by_cases htp : t = pos
      · subst htp
        rw [hw]
        simp
      · exact m3 hnu t (by omega) ht2
    | err e =>
      simp only [readIgnore, hw]
      refine ⟨by omega, by simp, ?_⟩
      intro _ t ht1 ht2
      have htp : t = pos := by omega
      subst htp
      rw [hw]
      simp
    | unwind =>
      simp only [readIgnore, hw]
      refine ⟨by omega, ?_, ?_⟩
      · intro _
        simpa using hw
      · intro h
        simp at h

theorem readDeliver_props (w : Nat → ReadOutcome) :
    ∀ (n pos : Nat) (proms : List Nat),
      pos ≤ (readDeliver w pos n proms).pos ∧
      ((readDeliver w pos n proms).outcome = .unwind →
        w ((readDeliver w pos n proms).pos - 1) = .unwind) ∧
      ((readDeliver w pos n proms).outcome ≠ .unwind →
        ∀ t, pos ≤ t → t < (readDeliver w pos n proms).pos → w t ≠ .unwind) := by
  intro n
  induction n with
  | zero =>
    intro pos proms
    refine ⟨Nat.le_refl _, ?_, ?_⟩
    · intro h
      simp [readDeliver] at h
    · intro _ t ht1 ht2
      simp [readDeliver] at ht2
      omega
  | succ n ih =>
    intro pos proms
    cases proms with
    | nil =>
      refine ⟨Nat.le_refl _, ?_, ?_⟩
      · intro h
        simp [readDeliver] at h
      · intro _ t ht1 ht2
        simp [readDeliver] at ht2
        omega
    | cons p ps =>
      cases hw : w pos with
      | ok v =>
        obtain ⟨m1, m2, m3⟩ := ih (pos + 1) ps
        simp only [readDeliver, hw]
        refine ⟨by omega, m2, ?_⟩
        intro hnu t ht1 ht2
        by_cases htp : t = pos
        · subst htp
          rw [hw]
          simp
        · exact m3 hnu t (by omega) ht2
      | err e =>
        obtain ⟨m1, m2, m3⟩ := ih (pos + 1) ps
        simp only [readDeliver, hw]
        refine ⟨by omega, m2, ?_⟩
        intro hnu t ht1 ht2
        by_cases htp : t = pos
        · subst htp
          rw [hw]
          simp
        · exact m3 hnu t (by omega) ht2
      | unwind =>
        simp only [readDeliver, hw]
        refine ⟨by omega, ?_, ?_⟩
        · intro _
          simpa using hw
        · intro hnu
          exact absurd rfl hnu

theorem readBulkLoop_props (w : Nat → ReadOutcome) (sink : Nat) :
    ∀ (n pos : Nat) (acc : List Reply) (res : Option Nat),
      pos ≤ (readBulkLoop w sink pos n acc res).pos ∧
      ((readBulkLoop w sink pos n acc res).outcome = .unwind →
        w ((readBulkLoop w sink pos n acc res).pos - 1) = .unwind) ∧
      ((readBulkLoop w sink pos n acc res).outcome ≠ .unwind →
        ∀ t, pos ≤ t → t < (readBulkLoop w sink pos n acc res).pos → w t ≠ .unwind) := by
  intro n
  induction n with
  | zero =>
    intro pos acc res
    cases res with
    | none =>
      refine ⟨Nat.le_refl _, ?_, ?_⟩
      · intro h
        simp [readBulkLoop] at h
      · intro _ t ht1 ht2
        simp [readBulkLoop] at ht2
        omega
    | some e =>
      refine ⟨Nat.le_refl _, ?_, ?_⟩
      · intro h
        simp [readBulkLoop] at h
      · intro _ t ht1 ht2
        simp [readBulkLoop] at ht2
        omega
  | succ n ih =>
    intro pos acc res
    cases hw : w pos with
    | ok v =>
      obtain ⟨m1, m2, m3⟩ := ih (pos + 1) (acc ++ [v]) res
      simp only [readBulkLoop, hw]
      refine ⟨by omega, m2, ?_⟩
      intro hnu t ht1 ht2
      by_cases htp : t = pos
      · subst htp
        rw [hw]
        simp
      · exact m3 hnu t (by omega) ht2
    | err e =>
      cases res with
      | none =>
        obtain ⟨m1, m2, m3⟩ := ih (pos + 1) acc (some e)
        simp only [readBulkLoop, hw]
        refine ⟨by omega, m2, ?_⟩
        intro hnu t ht1 ht2
        by_cases htp : t = pos
        · subst htp
          rw [hw]
          simp
        · exact m3 hnu t (by omega) ht2
      | some e0 =>
        simp only [readBulkLoop, hw]
        refine ⟨by omega, by simp, ?_⟩
        intro _ t ht1 ht2
        have htp : t = pos := by omega
        subst htp
        rw [hw]
        simp
    | unwind =>
      simp only [readBulkLoop, hw]
      cases res with
      | none =>
        refine ⟨by omega, ?_, ?_⟩
        · intro _
          simpa using hw
        · intro hnu
          exact absurd rfl hnu
      | some e0 =>
        refine ⟨by omega, ?_, ?_⟩
        · intro _
          simpa using hw
        · intro hnu
          exact absurd rfl hnu

theorem readLoopStep_unwind_props (w : Nat → ReadOutcome) (st : Queues) (pos : Nat) :
    pos ≤ (readLoopStep w st pos).pos ∧
    ((readLoopStep w st pos).outcome = .unwind →
      w ((readLoopStep w st pos).pos - 1) = .unwind) ∧
    ((readLoopStep w st pos).outcome ≠ .unwind →
      ∀ t, pos ≤ t → t < (readLoopStep w st pos).pos → w t ≠ .unwind) := by
  obtain ⟨ledger, rp, rps⟩ := st
  cases ledger with
  | nil =>
    refine ⟨Nat.le_refl _, ?_, ?_⟩
    · intro h
      simp [readLoopStep] at h
    · intro _ t ht1 ht2
      simp [readLoopStep] at ht2
      omega
  | cons fra rest =>
    obtain ⟨amt, act⟩ := fra
    cases act with
    | Ignore =>
      obtain ⟨m1, m2, m3⟩ := readIgnore_props w amt pos
      cases hu : (readIgnore w pos amt).unwound with
      | false =>
        simp only [readLoopStep, hu, Bool.false_eq_true, if_false]
        refine ⟨m1, ?_, ?_⟩
        · intro h
          simp at h
        · intro _
          exact m3 hu
      | true =>
        simp only [readLoopStep, hu, if_true]
        refine ⟨m1, ?_, ?_⟩
        · intro _
          exact m2 hu
        · intro hnu
          exact absurd rfl hnu
    | Deliver =>
      simpa only [readLoopStep] using readDeliver_props w amt pos rp
    | DeliverBulk =>
      cases rps with
      | nil =>
        refine ⟨Nat.le_refl _, ?_, ?_⟩
        · intro h
          simp [readLoopStep] at h
        · intro _ t ht1 ht2
          simp [readLoopStep] at ht2
          omega
      | cons sink ps =>
        simpa only [readLoopStep] using readBulkLoop_props w sink amt pos [] none

/-- C7: the runtime's cancellation exception (`forced_unwind`) is always
re-raised and never caught, logged, or converted into a sink failure.
Write side: each of `WriteItem`'s four branches ends `unwound` exactly when
the underlying send raised `forced_unwind`, and in that case the shared
queues are untouched and no event (no log, no sink resolution) is emitted;
the send loop propagates an unwind from the exact call that raised it and,
conversely, never ends otherwise when an unwind occurred.  Connect loop: an
unwinding connect attempt is rethrown without logging.  Read side: a step of
`ReadLoop` ends `unwind` only because its last `ReadOne` call raised
`forced_unwind`, and a step that does not end `unwind` made no `ReadOne`
call that raised it — so an unwind is never logged away (`Ignore`) or turned
into a promise failure (`Deliver`/`DeliverBulk`). -/
theorem forced_unwind_always_reraised :
    (∀ (w : Nat → SendOutcome) (st : Queues) (pos : Nat) (q : Query),
      ((fireOneStep w st pos q).outcome = .unwound ↔ w pos = .unwind) ∧
      ((fireOneStep w st pos q).outcome = .unwound →
        (fireOneStep w st pos q).queues = st ∧ (fireOneStep w st pos q).events = [])) ∧
    (∀ (w : Nat → SendOutcome) (st : Queues) (pos : Nat) (qs : List Query),
      ((fireManyStep w st pos qs).outcome = .unwound ↔ (sendAll w pos qs).status = .unwind) ∧
      ((fireManyStep w st pos qs).outcome = .unwound →
        (fireManyStep w st pos qs).queues = st ∧ (fireManyStep w st pos qs).events = [])) ∧
    (∀ (w : Nat → SendOutcome) (st : Queues) (pos : Nat) (q : Query) (k : Nat),
      ((awaitOneStep w st pos q k).outcome = .unwound ↔ w pos = .unwind) ∧
      ((awaitOneStep w st pos q k).outcome = .unwound →
        (awaitOneStep w st pos q k).queues = st ∧ (awaitOneStep w st pos q k).events = [])) ∧
    (∀ (w : Nat → SendOutcome) (st : Queues) (pos : Nat) (qs : List Query) (k : Nat),
      ((awaitManyStep w st pos qs k).outcome = .unwound ↔ (sendAll w pos qs).status = .unwind) ∧
      ((awaitManyStep w st pos qs k).outcome = .unwound →
        (awaitManyStep w st pos qs k).queues = st ∧ (awaitManyStep w st pos qs k).events = [])) ∧
    (∀ (w : Nat → SendOutcome) (qs : List Query) (pos : Nat),
      ((sendAll w pos qs).status = .unwind → w ((sendAll w pos qs).pos - 1) = .unwind) ∧
      ((sendAll w pos qs).status ≠ .unwind →
        ∀ t, pos ≤ t → t < (sendAll w pos qs).pos → w t ≠ .unwind)) ∧
    (connectStep .unwind = (.unwound, [])) ∧
    (∀ (w : Nat → ReadOutcome) (st : Queues) (pos : Nat),
      ((readLoopStep w st pos).outcome = .unwind →
        w ((readLoopStep w st pos).pos - 1) = .unwind) ∧
      ((readLoopStep w st pos).outcome ≠ .unwind →
        ∀ t, pos ≤ t → t < (readLoopStep w st pos).pos → w t ≠ .unwind)) := by
  refine ⟨?_, ?_, ?_, ?_, ?_, rfl, ?_⟩
  · intro w st pos q
    cases hw : w pos <;> simp [fireOneStep, hw]
  · intro w st pos qs
    cases hst : (sendAll w pos qs).status <;> simp [fireManyStep, hst]
  · intro w st pos q k
    cases hw : w pos <;> simp [awaitOneStep, hw]
  · intro w st pos qs k
    cases hst : (sendAll w pos qs).status <;> simp [awaitManyStep, hst]
  · intro w qs pos
    exact ⟨(sendAll_props w qs pos).2.1, (sendAll_props w qs pos).2.2⟩
  · intro w st pos
    exact ⟨(readLoopStep_unwind_props w st pos).2.1, (readLoopStep_unwind_props w st pos).2.2⟩

/-- Witness for `forced_unwind_always_reraised`: an unwinding send leaves the
queues untouched with no event, and an unwinding read propagates. -/
theorem forced_unwind_always_reraised_witness :
    ((fireOneStep (fun _ => SendOutcome.unwind) ⟨[], [], []⟩ 0 [[1]]).queues = ⟨[], [], []⟩ ∧
     (fireOneStep (fun _ => SendOutcome.unwind) ⟨[], [], []⟩ 0 [[1]]).events = []) ∧
    (fun _ : Nat => ReadOutcome.unwind)
        ((readLoopStep (fun _ => ReadOutcome.unwind) ⟨[⟨1, .Ignore⟩], [], []⟩ 0).pos - 1) =
      ReadOutcome.unwind :=
  ⟨(forced_unwind_always_reraised.1 (fun _ => SendOutcome.unwind) ⟨[], [], []⟩ 0 [[1]]).2
      (by decide),
   (forced_unwind_always_reraised.2.2.2.2.2.2 (fun _ => ReadOutcome.unwind)
      ⟨[⟨1, .Ignore⟩], [], []⟩ 0).1 (by decide)⟩
